import Mathlib

/-!
# Verification of the capi-crawler resource-graph crawler

A shallow embedding of `capi-crawler.py`: the path normalizer
(`ResourcePath.generic_path` / `ResourcePath.infer_resource`), the link
predicates (`Link.is_read` / `is_v3` / `is_download`), the link extractor
(`Crawler.get_links_from_endpoint`), the mutable resource graph
(`ResourceGraph.add_resource` / `add_link`) and the recursive crawl
(`Crawler.find_all_paths`), together with proofs of the specification's
claims about them.

Strings are modelled as their character lists where scanning matters.
Python exceptions are modelled as `Option`/`Except` failures; the
recursive crawl is given explicit fuel, and termination claims are proved
as "sufficient fuel is never exhausted".
-/

namespace CapiCrawler

/-! ## The guid pattern

`guid_pattern = re.compile('[0-9a-f]{8}-[0-9a-f]{4}-[0-9a-f]{4}-[0-9a-f]{4}-[0-9a-f]{12}', re.I)`

The pattern is fixed-width (36 characters), so `re.sub` is the scanner
that, at each position, replaces the next 36 characters when they have
the 8-4-4-4-12 hex shape and otherwise copies one character.  `re.I`
makes the hex classes case-insensitive. -/

/-- Is `pat` an initial run of `cs`? -/
def isPrefixL : List Char → List Char → Bool
  | [], _ => true
  | _ :: _, [] => false
  | p :: ps, c :: cs => p = c && isPrefixL ps cs

/-- Python `pat in s`: `pat` occurs as a contiguous substring of `cs`. -/
def hasSubstrL (pat : List Char) : List Char → Bool
  | [] => pat.isEmpty
  | c :: cs => isPrefixL pat (c :: cs) || hasSubstrL pat cs

/-- Python `pat in s` on strings. -/
def hasSubstr (pat s : String) : Bool := hasSubstrL pat.data s.data

/-- `[0-9a-f]` under `re.I`: a hex digit, either case. -/
def isHexChar (c : Char) : Bool :=
  ('0' ≤ c && c ≤ '9') || ('a' ≤ c && c ≤ 'f') || ('A' ≤ c && c ≤ 'F')

/-- Consume exactly `n` hex characters, returning the rest. -/
def hexRun : Nat → List Char → Option (List Char)
  | 0, cs => some cs
  | _ + 1, [] => none
  | n + 1, c :: cs => if isHexChar c then hexRun n cs else none

/-- Consume a literal `'-'`. -/
def dashRun : List Char → Option (List Char)
  | [] => none
  | c :: cs => if c = '-' then some cs else none

/-- Match `guid_pattern` at the head of the list: 8-4-4-4-12 hex groups
separated by dashes (36 characters total); return the remainder. -/
def matchGuid (cs : List Char) : Option (List Char) :=
  hexRun 8 cs >>= dashRun >>= hexRun 4 >>= dashRun >>= hexRun 4 >>=
    dashRun >>= hexRun 4 >>= dashRun >>= hexRun 12

/-- The replacement text `':guid'` (`ResourcePath.guid_placeholder`). -/
def guidStr : List Char := [':', 'g', 'u', 'i', 'd']

/-- The replacement text `':type'` (`ResourcePath.type_placeholder`). -/
def typeStr : List Char := [':', 't', 'y', 'p', 'e']

/-- `guid_pattern.sub(':guid', s)`: left-to-right, non-overlapping
replacement of every match.  Fuel-indexed so that the definition is
structural; `fuel ≥ length` always suffices. -/
def guidSubF : Nat → List Char → List Char
  | 0, cs => cs
  | _ + 1, [] => []
  | f + 1, c :: cs =>
    (matchGuid (c :: cs)).elim (c :: guidSubF f cs) (fun rest => guidStr ++ guidSubF f rest)

/-- `guid_pattern.sub(':guid', s)` on character lists. -/
def guidSubL (cs : List Char) : List Char := guidSubF cs.length cs

/-- Does the list start with the literal `web`? -/
def startsWithWeb (cs : List Char) : Bool := isPrefixL ['w', 'e', 'b'] cs

/-- `s.replace('web', ':type')`: Python's left-to-right, non-overlapping
substring replacement.  Fuel-indexed; `fuel ≥ length` suffices. -/
def replaceWebF : Nat → List Char → List Char
  | 0, cs => cs
  | _ + 1, [] => []
  | f + 1, c :: cs =>
    if startsWithWeb (c :: cs) then typeStr ++ replaceWebF f (cs.drop 2)
    else c :: replaceWebF f cs

/-- `s.replace('web', ':type')` on character lists. -/
def replaceWebL (cs : List Char) : List Char := replaceWebF cs.length cs

/-- `ResourcePath.generic_path` on character lists:
`guid_pattern.sub(':guid', path).replace('web', ':type')`. -/
def generic_pathL (cs : List Char) : List Char := replaceWebL (guidSubL cs)

/-- `ResourcePath(path).generic_path()`. -/
def generic_path (p : String) : String := ⟨generic_pathL p.data⟩

/-- Python `str.split('/')` on character lists. -/
def splitSlash : List Char → List (List Char)
  | [] => [[]]
  | c :: cs =>
    if c = '/' then [] :: splitSlash cs
    else
      match splitSlash cs with
      | [] => [[c]]
      | s :: ss => (c :: s) :: ss

/-- Join segments with `'/'` (the inverse of `splitSlash`): a path "that
differs from another only in its identifier segments" is one built by
joining per-segment-related segment lists. -/
def joinSlash : List (List Char) → List Char
  | [] => []
  | s :: ss =>
    match ss with
    | [] => s
    | t :: ts => s ++ '/' :: joinSlash (t :: ts)

/-- The segment is exactly one 8-4-4-4-12 UUID (the whole segment is
consumed by `guid_pattern`). -/
def isUuidSeg (s : List Char) : Bool := matchGuid s == some []

/-- `ResourcePath.placeholders = [':guid', ':type']`. -/
def placeholdersL : List (List Char) := [guidStr, typeStr]

/-- `ResourcePath(path).infer_resource()` on character lists: split the
generic path on `'/'`, drop placeholder segments, take the last segment.
`none` models the `IndexError` of `[-1]` on an empty list. -/
def inferL (cs : List Char) : Option (List Char) :=
  ((splitSlash (generic_pathL cs)).filter
    (fun s => !(s = guidStr || s = typeStr : Bool))).getLast?

/-- `ResourcePath(path).infer_resource()`. -/
def infer_resource (p : String) : Option String :=
  (inferL p.data).map (fun cs => ⟨cs⟩)

example : generic_path "/v3/apps/11111111-1111-1111-1111-111111111111/web" =
    "/v3/apps/:guid/:type" := by decide
example : generic_path "/v3/webhooks" = "/v3/:typehooks" := by decide
example : infer_resource "/v3/apps/:guid/:type" = some "apps" := by decide
example : infer_resource "/v3/apps/" = some "" := by decide

/-- Does some position of `cs` start a `guid_pattern` match?  (`true` iff
`guid_pattern.sub` would change — or re-change — the string.) -/
def hasGuidMatch : List Char → Bool
  | [] => false
  | c :: cs => (matchGuid (c :: cs)).isSome || hasGuidMatch cs

/-! ## Links

`Link.__init__` stores `href` and `method` from the link dict and
computes `urlparse(href).path`.  An absent `href` would crash
`urlparse` in the source before any predicate runs, so `href` is
modelled as present. -/

/-- The path component of a URL, modelling `urllib.parse.urlparse(href).path`
for the URL shapes the crawler sees: drop a `scheme://host` head when
`://` is present, and strip a query/fragment tail. -/
def afterSchemeMarker : List Char → Option (List Char)
  | [] => none
  | ':' :: '/' :: '/' :: rest => some rest
  | _ :: rest => afterSchemeMarker rest

/-- Keep from the first `'/'` on (the path part after the host). -/
def fromSlash : List Char → List Char
  | [] => []
  | '/' :: rest => '/' :: rest
  | _ :: rest => fromSlash rest

/-- Drop a `?query` or `#fragment` tail. -/
def upToQuery : List Char → List Char
  | [] => []
  | '?' :: _ => []
  | '#' :: _ => []
  | c :: rest => c :: upToQuery rest

/-- `urllib.parse.urlparse(s).path` for the URL shapes the crawler sees. -/
def urlparsePath (s : String) : String :=
  match afterSchemeMarker s.data with
  | some rest => ⟨upToQuery (fromSlash rest)⟩
  | none => ⟨upToQuery s.data⟩

/-- A link descriptor: `linkDict.get('href')` (modelled as present) and
`linkDict.get('method')` (absent becomes `none`). -/
structure Link where
  href : String
  method : Option String
deriving DecidableEq, Repr

/-- `self.path = urlparse(self.href).path`. -/
def Link.path (l : Link) : String := urlparsePath l.href

/-- `Link.is_read`: `self.method in ['GET', None]`. -/
def Link.is_read (l : Link) : Bool := l.method == some "GET" || l.method == none

/-- `Link.is_v3`: `'v3' in self.href`. -/
def Link.is_v3 (l : Link) : Bool := hasSubstr "v3" l.href

/-- `Link.is_download`: `'download' in self.href`. -/
def Link.is_download (l : Link) : Bool := hasSubstr "download" l.href

/-- The spec's `followable` predicate:
`is_read AND is_v3 AND NOT is_download` (the first three conjuncts of the
recursion guard on line 144 of the source). -/
def followable (l : Link) : Bool := l.is_read && l.is_v3 && !l.is_download

/-! ## Documents

A fetched JSON document, shaped by what `get_links_from_endpoint` reads:
an optional `links` mapping (an ordered dict of name → link dict) and an
optional `resources` list whose elements each have an optional `links`
mapping. -/

/-- One element of a `resources` list. -/
structure Resource where
  links : Option (List (String × Link))
deriving DecidableEq, Repr

/-- A fetched document. -/
structure Doc where
  links : Option (List (String × Link))
  resources : Option (List Resource)
deriving DecidableEq, Repr

/-- Python truthiness of `response.get(key)` for a dict-valued key:
`None` and the empty dict are falsy. -/
def truthy : Option (List α) → Bool
  | none => false
  | some l => !l.isEmpty

/-! ## ResourceGraph

`graph_tool.Graph` is a multigraph: `add_vertex`/`add_edge` always create
a fresh vertex/edge.  Vertices are modelled as indices into the append-only
`vNames`/`vColors` lists and edges as indices into `eEnds`/`eNames`.
The `vertices` and `edges` Python dicts are modelled as association lists
with insert-overwrites semantics. -/

/-- Python dict assignment `d[k] = v`: overwrite an existing binding in
place, else append. -/
def dinsert : List (String × α) → String → α → List (String × α)
  | [], k, v => [(k, v)]
  | (k', v') :: rest, k, v =>
    if k' = k then (k, v) :: rest else (k', v') :: dinsert rest k v

/-- Python dict lookup `d[k]` / `d.get(k)`. -/
def dlookup : List (String × α) → String → Option α
  | [], _ => none
  | (k', v') :: rest, k => if k' = k then some v' else dlookup rest k

/-- Python `k in d`. -/
def dcontains (d : List (String × α)) (k : String) : Bool := (dlookup d k).isSome

/-- The `ResourceGraph` state: the graph-tool multigraph (vertex and edge
lists with their property maps) plus the two bookkeeping dicts. -/
structure ResourceGraph where
  vNames : List String
  vColors : List String
  eEnds : List (Nat × Nat)
  eNames : List String
  vertices : List (String × Nat)
  edges : List (String × Nat)
deriving DecidableEq, Repr

/-- `ResourceGraph.v3_color`. -/
def v3_color : String := "#1C366B"

/-- `ResourceGraph.v2_color`. -/
def v2_color : String := "#1DACE8"

/-- `ResourceGraph.__init__`. -/
def emptyGraph : ResourceGraph := ⟨[], [], [], [], [], []⟩

/-- `ResourceGraph.add_resource(resource_name, is_v3)`: unconditionally
add a fresh vertex, name and colour it, and (over)write the
`vertices[resource_name]` binding. -/
def add_resource (g : ResourceGraph) (resource_name : String)
    (is_v3 : Bool := true) : ResourceGraph :=
  let vertex := g.vNames.length
  { g with
    vNames := g.vNames ++ [resource_name]
    vColors := g.vColors ++ [if is_v3 then v3_color else v2_color]
    vertices := dinsert g.vertices resource_name vertex }

/-- `ResourceGraph.has_resource(resource_name)`. -/
def has_resource (g : ResourceGraph) (resource_name : String) : Bool :=
  dcontains g.vertices resource_name

/-- `ResourceGraph.edge_id(source_name, destination_name, name)`:
`f'{name} -- {source_name} -- {destination_name}'`. -/
def edge_id (source_name destination_name name : String) : String :=
  name ++ " -- " ++ source_name ++ " -- " ++ destination_name

/-- `ResourceGraph.add_link(source_name, destination_name, name)`:
look both endpoints up in `vertices` (a missing endpoint raises
`KeyError`, modelled as `none`), add a fresh edge to the multigraph,
name it, and (over)write the `edges[edge_id]` binding. -/
def add_link (g : ResourceGraph) (source_name destination_name name : String) :
    Option ResourceGraph :=
  match dlookup g.vertices source_name, dlookup g.vertices destination_name with
  | some s, some d =>
    let edge := g.eEnds.length
    some { g with
      eEnds := g.eEnds ++ [(s, d)]
      eNames := g.eNames ++ [name]
      edges := dinsert g.edges (edge_id source_name destination_name name) edge }
  | _, _ => none

/-- `ResourceGraph.has_link(source_name, destination_name, name)`. -/
def has_link (g : ResourceGraph) (source_name destination_name name : String) :
    Bool :=
  dcontains g.edges (edge_id source_name destination_name name)

/-- How many vertices of the multigraph carry this name. -/
def countNodes (g : ResourceGraph) (n : String) : Nat :=
  (g.vNames.filter (fun m => m == n)).length

/-- The (source name, destination name, relation label) triple of edge `i`. -/
def tripleAt (g : ResourceGraph) (i : Nat) : Option (String × String × String) :=
  match g.eEnds.get? i, g.eNames.get? i with
  | some (a, b), some nm =>
    match g.vNames.get? a, g.vNames.get? b with
    | some sa, some sb => some (sa, sb, nm)
    | _, _ => none
  | _, _ => none

/-- How many edges of the multigraph carry this
(source name, destination name, relation label) triple. -/
def countEdges (g : ResourceGraph) (s d n : String) : Nat :=
  ((List.range g.eEnds.length).filter
    (fun i => tripleAt g i == some (s, d, n))).length

/-- The insertion the crawler actually performs for nodes
(`if not self.graph.has_resource(name): self.graph.add_resource(name, v3)`). -/
def addNodeIfAbsent (g : ResourceGraph) (n : String) (v3 : Bool) : ResourceGraph :=
  if has_resource g n then g else add_resource g n v3

/-- The insertion the crawler actually performs for edges
(`if not self.graph.has_link(s, d, n): self.graph.add_link(s, d, n)`). -/
def addLinkIfAbsent (g : ResourceGraph) (s d n : String) : Option ResourceGraph :=
  if has_link g s d n then some g else add_link g s d n

/-! ## The crawler -/

/-- `Crawler.get_links_from_endpoint(endpoint)`:
`response.get('links') or response.get('resources')[-1].get('links')`,
then the dict's values as `Link`s, or `[]` when the collection is falsy.
`none` models a raised exception: `None[-1]` (`TypeError`) when both
`links` is falsy and `resources` is absent, or `[-1]` on an empty
`resources` list (`IndexError`). -/
def get_links_from_endpoint (api : String → Doc) (endpoint : String) :
    Option (List Link) :=
  let response := api endpoint
  let response_links : Option (Option (List (String × Link))) :=
    if truthy response.links then some response.links
    else
      match response.resources with
      | none => none
      | some rs =>
        match rs.getLast? with
        | none => none
        | some r => some r.links
  match response_links with
  | none => none
  | some rl => some (if truthy rl then (rl.getD []).map Prod.snd else [])

/-- The links an endpoint contributes (empty when extraction fails). -/
def linksOf (api : String → Doc) (e : String) : List Link :=
  (get_links_from_endpoint api e).getD []

/-- `set.add`. -/
def addToSet (s : List String) (x : String) : List String :=
  if s.contains x then s else s ++ [x]

/-- The crawl errors: `fuelOut` is fuel exhaustion of the embedding (the
recursion depth exceeded the fuel); `exn` models a raised Python
exception (`IndexError` from `infer_resource`, `TypeError`/`IndexError`
from `get_links_from_endpoint`, `KeyError` from `add_link`). -/
inductive CrawlErr where
  | fuelOut
  | exn
deriving DecidableEq, Repr

/-- The `Crawler` state: the visited set, the graph, plus two trace
fields recording observable events of the run — `expanded` logs the
canonical path of each expansion (the source's unindented
`print(f'{root_sans_guid} -- {resource_name}')`), `fetched` logs each
endpoint passed to `self.cf_api.get`. -/
structure CrawlState where
  visited : List String
  graph : ResourceGraph
  expanded : List String
  fetched : List String
deriving DecidableEq, Repr

/-- `Crawler.__init__` state with an empty `ResourceGraph` (as `main` builds). -/
def initState : CrawlState := ⟨[], emptyGraph, [], []⟩

/-- The body of the `for link in self.get_links_from_endpoint(root)` loop
of `find_all_paths`, with the recursive call abstracted as `recurse`:
canonicalize the link's path, infer its resource, add the node if absent
(with the link's `is_v3` colour), add the edge if absent, and recurse
when the link is readable, v3, not a download and unvisited. -/
def processLinks (recurse : CrawlState → String → Except CrawlErr CrawlState)
    (resource_name : String) :
    CrawlState → List Link → Except CrawlErr CrawlState
  | st, [] => .ok st
  | st, link :: rest =>
    match infer_resource link.path with
    | none => .error .exn
    | some linked_resource_name =>
      match addLinkIfAbsent (addNodeIfAbsent st.graph linked_resource_name link.is_v3)
          resource_name linked_resource_name (generic_path link.path) with
      | none => .error .exn
      | some g2 =>
        if link.is_read && link.is_v3 && !link.is_download
            && !(st.visited.contains (generic_path link.path)) then
          match recurse { st with graph := g2 } link.path with
          | .ok st3 => processLinks recurse resource_name st3 rest
          | .error e => .error e
        else processLinks recurse resource_name { st with graph := g2 } rest

/-- `Crawler.find_all_paths(root)`, fuel-indexed: canonicalize the root,
infer its resource (an `IndexError` is `.error .exn`), log the expansion,
add the canonical path to the visited set, add the node if absent, fetch
and extract the links (an exception is `.error .exn`), then run the link
loop, recursing with one unit of fuel less.  `.error .fuelOut` is
returned only when the fuel runs out. -/
def crawl (api : String → Doc) : Nat → CrawlState → String → Except CrawlErr CrawlState
  | 0, _, _ => .error .fuelOut
  | fuel + 1, st, root =>
    match infer_resource root with
    | none => .error .exn
    | some resource_name =>
      match get_links_from_endpoint api root with
      | none => .error .exn
      | some links =>
        processLinks (crawl api fuel) resource_name
          { st with
            expanded := st.expanded ++ [generic_path root]
            visited := addToSet st.visited (generic_path root)
            graph := addNodeIfAbsent st.graph resource_name true
            fetched := st.fetched ++ [root] }
          links

/-- Verification order on crawler states: a crawl step only appends to
the `fetched` and `expanded` traces, only grows the visited set, and
never removes a graph node or edge. -/
def StateLe (st st' : CrawlState) : Prop :=
  (∃ t, st'.fetched = st.fetched ++ t) ∧
  (∀ x, x ∈ st.visited → x ∈ st'.visited) ∧
  (∀ n, has_resource st.graph n = true → has_resource st'.graph n = true) ∧
  (∀ s d n, has_link st.graph s d n = true → has_link st'.graph s d n = true) ∧
  (∃ t, st'.expanded = st.expanded ++ t)

/-- How many members of the canonical-path universe `allP` are not yet
in the visited set. -/
def unvisitedCount (allP visited : List String) : Nat :=
  (allP.filter (fun p => !visited.contains p)).length

/-! ## Concrete instances used by the claim checks -/

/-- An API whose every response has neither a `links` nor a `resources` key. -/
def apiNoKeys : String → Doc := fun _ => ⟨none, none⟩

/-- A leaf response: no `links` key, one resource with an empty `links` dict. -/
def leafDoc : Doc := ⟨none, some [⟨some []⟩]⟩

/-- An API whose every response is a leaf. -/
def leafApi : String → Doc := fun _ => leafDoc

/-- A two-endpoint API with a cycle: `/v3/a` links to `/v3/b` and back. -/
def apiCycle : String → Doc := fun e =>
  if e = "/v3/a" then ⟨some [("b", ⟨"/v3/b", none⟩)], none⟩
  else if e = "/v3/b" then ⟨some [("a", ⟨"/v3/a", none⟩)], none⟩
  else leafDoc

/-- An API whose root carries a followable GET link, a POST link and a
GET download link. -/
def apiFilter : String → Doc := fun e =>
  if e = "/v3" then
    ⟨some [("apps", ⟨"/v3/apps", some "GET"⟩),
           ("tasks", ⟨"/v3/tasks", some "POST"⟩),
           ("pkg", ⟨"/v3/packages/download", some "GET"⟩)], none⟩
  else leafDoc

/-- The crawl of `apiFilter` from its root. -/
def filterRun : Except CrawlErr CrawlState := crawl apiFilter 5 initState "/v3"

/-- The final state of `filterRun`. -/
def filterSt : CrawlState := filterRun.toOption.getD initState

/-- The crawl of `apiCycle` from `/v3/a`. -/
def cycleRun : Except CrawlErr CrawlState := crawl apiCycle 3 initState "/v3/a"

/-- A graph holding exactly the nodes `apps` and `droplets`. -/
def twoNodeGraph : ResourceGraph :=
  add_resource (add_resource emptyGraph "apps" true) "droplets" true

/-- The relation label of the spec's edge-idempotence test. -/
def dropletsRel : String := "/v3/apps/:guid/droplets"

/-- A path whose canonical form still contains a `guid_pattern` match:
a UUID followed by 35 more hex/dash characters, so that the trailing
`d` of the inserted `:guid` placeholder completes a fresh match. -/
def c9Path : String :=
  "/11111111-1111-1111-1111-1111111111111111111-1111-1111-1111-111111111111"

/-! ## Dictionary lemmas -/

theorem dlookup_dinsert_self (d : List (String × α)) (k : String) (v : α) :
    dlookup (dinsert d k v) k = some v := by
  induction d with
  | nil => simp [dinsert, dlookup]
  | cons p rest ih =>
    obtain ⟨k', v'⟩ := p
    by_cases h : k' = k
    · simp [dinsert, h, dlookup]
    · simp [dinsert, h, dlookup, ih]

theorem dlookup_dinsert_ne (d : List (String × α)) (k k' : String) (v : α)
    (h : k' ≠ k) : dlookup (dinsert d k v) k' = dlookup d k' := by
  have h' : k ≠ k' := fun hh => h hh.symm
  induction d with
  | nil => simp [dinsert, dlookup, h']
  | cons p rest ih =>
    obtain ⟨k₀, v₀⟩ := p
    by_cases h0 : k₀ = k
    · subst h0
      simp [dinsert, dlookup, h']
    · simp [dinsert, h0, dlookup, ih]

theorem dcontains_dinsert_self (d : List (String × α)) (k : String) (v : α) :
    dcontains (dinsert d k v) k = true := by
  simp [dcontains, dlookup_dinsert_self]

theorem dcontains_dinsert_of_dcontains (d : List (String × α)) (k k' : String)
    (v : α) (h : dcontains d k' = true) : dcontains (dinsert d k v) k' = true := by
  by_cases hk : k' = k
  · subst hk; exact dcontains_dinsert_self d k' v
  · simpa [dcontains, dlookup_dinsert_ne d k k' v hk] using h

theorem has_resource_add_resource_self (g : ResourceGraph) (n : String) (v3 : Bool) :
    has_resource (add_resource g n v3) n = true := by
  simp [has_resource, add_resource, dcontains_dinsert_self]

/-! ## C2: node insertion -/

/-- C2 counterexample: `add_resource` itself is not idempotent — calling it
twice with the name `"apps"` puts two vertices named `"apps"` into the
multigraph (the `vertices` dict keeps one entry, pointing at the second). -/
theorem add_resource_twice_duplicates_nodes :
    countNodes (add_resource (add_resource emptyGraph "apps" true) "apps" true) "apps" = 2 := by
  decide

/-- C2 (amended): the guarded insertion the crawler performs
(`if not has_resource(name): add_resource(name)`) is idempotent: repeating
it is a no-op (in particular a no-op whenever a node with the name already
exists), and performing it twice from the empty graph leaves exactly one
vertex named `"apps"`. -/
theorem guarded_add_resource_idempotent :
    (∀ (g : ResourceGraph) (n : String) (v3 : Bool),
      addNodeIfAbsent (addNodeIfAbsent g n v3) n v3 = addNodeIfAbsent g n v3) ∧
    countNodes (addNodeIfAbsent (addNodeIfAbsent emptyGraph "apps" true) "apps" true) "apps" = 1 := by
  refine ⟨fun g n v3 => ?_, by decide⟩
  unfold addNodeIfAbsent
  by_cases h : has_resource g n = true
  · simp [h]
  · simp [h, has_resource_add_resource_self]

/-! ## C3: edge insertion -/

/-- C3 counterexample: `add_link` itself is not idempotent — with both
endpoint nodes present, calling it twice with the same
(source, destination, relation) triple puts two such edges into the
multigraph (the `edges` dict keeps one entry, pointing at the second). -/
theorem add_link_twice_duplicates_edges :
    ((add_link twoNodeGraph "apps" "droplets" dropletsRel).bind
      (fun g => add_link g "apps" "droplets" dropletsRel)).map
      (fun g => countEdges g "apps" "droplets" dropletsRel) = some 2 := by
  decide

/-- C3 (amended): the guarded insertion the crawler performs
(`if not has_link(s, d, n): add_link(s, d, n)`) is idempotent on the
triple whenever both endpoint nodes exist: repeating it is a no-op, and
performing it twice on a graph holding just the two endpoints leaves
exactly one edge with the triple. -/
theorem guarded_add_link_idempotent :
    (∀ (g : ResourceGraph) (s d n : String),
      has_resource g s = true → has_resource g d = true →
      (addLinkIfAbsent g s d n).bind (fun g' => addLinkIfAbsent g' s d n) =
        addLinkIfAbsent g s d n) ∧
    ((addLinkIfAbsent twoNodeGraph "apps" "droplets" dropletsRel).bind
      (fun g => addLinkIfAbsent g "apps" "droplets" dropletsRel)).map
      (fun g => countEdges g "apps" "droplets" dropletsRel) = some 1 := by
  refine ⟨fun g s d n hs hd => ?_, by decide⟩
  unfold addLinkIfAbsent
  by_cases h : has_link g s d n = true
  · simp [h]
  · obtain ⟨vs, hvs⟩ := Option.isSome_iff_exists.mp hs
    obtain ⟨vd, hvd⟩ := Option.isSome_iff_exists.mp hd
    simp only [h, if_neg, Bool.not_eq_true, if_false]
    simp [add_link, hvs, hvd, has_link, dcontains_dinsert_self]

/-- Witness for the C3 theorem's hypotheses at a concrete graph. -/
theorem guarded_add_link_idempotent_witness :
    has_resource twoNodeGraph "apps" = true ∧
    has_resource twoNodeGraph "droplets" = true ∧
    (addLinkIfAbsent twoNodeGraph "apps" "droplets" dropletsRel).bind
      (fun g' => addLinkIfAbsent g' "apps" "droplets" dropletsRel) =
      addLinkIfAbsent twoNodeGraph "apps" "droplets" dropletsRel :=
  ⟨by decide, by decide,
    guarded_add_link_idempotent.1 twoNodeGraph "apps" "droplets" dropletsRel
      (by decide) (by decide)⟩

/-! ## C4: link extraction -/

/-- C4 counterexample: on a document with neither a `links` nor a
`resources` key, `get_links_from_endpoint` does not return an empty
sequence — `response.get('resources')[-1]` raises `TypeError`
(`None` is not subscriptable), modelled as `none`. -/
theorem get_links_crashes_without_either_key :
    get_links_from_endpoint apiNoKeys "/v3" = none ∧
    get_links_from_endpoint apiNoKeys "/v3" ≠ some [] := by
  decide

/-- C4 (amended): when the `links` key is falsy but a non-empty
`resources` list is present whose last element also yields no truthy link
collection, extraction returns the empty sequence (non-fatal); when the
`links` key is falsy and `resources` is absent or empty, extraction
raises (`TypeError` / `IndexError`), modelled as `none`. -/
theorem get_links_empty_or_crash :
    (∀ (api : String → Doc) (e : String) (rs : List Resource) (r : Resource),
      truthy (api e).links = false → (api e).resources = some rs →
      rs.getLast? = some r → truthy r.links = false →
      get_links_from_endpoint api e = some []) ∧
    (∀ (api : String → Doc) (e : String),
      truthy (api e).links = false → (api e).resources = none →
      get_links_from_endpoint api e = none) ∧
    (∀ (api : String → Doc) (e : String),
      truthy (api e).links = false → (api e).resources = some [] →
      get_links_from_endpoint api e = none) := by
  refine ⟨fun api e rs r h1 h2 h3 h4 => ?_, fun api e h1 h2 => ?_, fun api e h1 h2 => ?_⟩
  · simp [get_links_from_endpoint, h1, h2, h3, h4]
  · simp [get_links_from_endpoint, h1, h2]
  · simp [get_links_from_endpoint, h1, h2]

/-- Witness for the C4 theorem's hypotheses at a concrete document. -/
theorem get_links_empty_or_crash_witness :
    truthy (leafApi "/x").links = false ∧
    (leafApi "/x").resources = some [(⟨some []⟩ : Resource)] ∧
    [(⟨some []⟩ : Resource)].getLast? = some (⟨some []⟩ : Resource) ∧
    truthy (Resource.links ⟨some []⟩) = false ∧
    get_links_from_endpoint leafApi "/x" = some [] :=
  ⟨by decide, by decide, by decide, by decide,
    get_links_empty_or_crash.1 leafApi "/x" [⟨some []⟩] ⟨some []⟩
      (by decide) (by decide) (by decide) (by decide)⟩

/-! ## C6: substitution is substring-based, not segment-based -/

/-- C6 counterexample: the segment `webhooks` contains the literal `web`
only as a proper substring, yet `generic_path` does not leave it
unchanged — it rewrites `/v3/webhooks` to `/v3/:typehooks`. -/
theorem generic_path_changes_webhooks :
    generic_path "/v3/webhooks" = "/v3/:typehooks" ∧
    generic_path "/v3/webhooks" ≠ "/v3/webhooks" := by
  decide

/-- C6 (amended): `generic_path` substitutes substrings, not whole
segments: every occurrence of the literal `web` becomes `:type` even
inside a longer segment (`webhooks` → `:typehooks`), and every
occurrence of the 8-4-4-4-12 UUID pattern becomes `:guid` even when it
is only part of a segment; segments that are exactly the literal or
exactly a UUID are replaced whole. -/
theorem generic_path_substring_substitution :
    generic_path "/v3/webhooks" = "/v3/:typehooks" ∧
    generic_path "/v3/x11111111-1111-1111-1111-111111111111" = "/v3/x:guid" ∧
    generic_path "/v3/web" = "/v3/:type" ∧
    generic_path "/v3/apps/11111111-1111-1111-1111-111111111111/web" =
      "/v3/apps/:guid/:type" := by
  decide

/-! ## C8: resource inference -/

/-- C8: `infer_resource` splits the canonical path on `/`, drops the
placeholder segments `:guid` and `:type`, and returns the last remaining
segment (`none` modelling the `IndexError` when none remains); on
`/v3/apps/:guid/:type` it returns `apps`. -/
theorem infer_resource_last_non_placeholder :
    (∀ p : String, infer_resource p =
      (((splitSlash (generic_pathL p.data)).filter
        (fun s => !(s = guidStr || s = typeStr : Bool))).getLast?).map
        (fun cs => (⟨cs⟩ : String))) ∧
    infer_resource "/v3/apps/:guid/:type" = some "apps" :=
  ⟨fun _ => rfl, by decide⟩

/-- C9 counterexample: `generic_path` is not idempotent — on `c9Path`
the substitution leaves text whose second pass still matches the UUID
pattern (the trailing `d` of `:guid` plus 35 following characters), so
normalizing twice differs from normalizing once. -/
theorem generic_path_not_idempotent :
    generic_path c9Path = "/:guid1111111-1111-1111-1111-111111111111" ∧
    generic_path (generic_path c9Path) = "/:gui:guid" ∧
    generic_path (generic_path c9Path) ≠ generic_path c9Path := by
  decide

/-! ## C10: empty resource names -/

theorem generic_pathL_slash_cons (cs : List Char) :
    generic_pathL ('/' :: cs) = '/' :: generic_pathL cs := rfl

theorem splitSlash_slash_cons (cs : List Char) :
    splitSlash ('/' :: cs) = [] :: splitSlash cs := rfl

/-- C10: `infer_resource` fails (the `IndexError` of the trailing `[-1]`,
the spec's `EmptyResourceName`) exactly when every `/`-segment of the
canonical path is a placeholder; this cannot happen for a path starting
with `/`, whose split has a leading empty segment; a path ending in `/`
yields the empty string as its resource name, and the crawl then makes
an empty-named graph node. -/
theorem infer_resource_empty_name_behaviour :
    (∀ p : String, infer_resource p = none ↔
      ∀ s ∈ splitSlash (generic_pathL p.data), s = guidStr ∨ s = typeStr) ∧
    (∀ (p : String) (rest : List Char), p.data = '/' :: rest →
      (infer_resource p).isSome = true) ∧
    infer_resource "/v3/apps/" = some "" ∧
    (crawl leafApi 2 initState "/v3/apps/").toOption.map
      (fun st => has_resource st.graph "") = some true := by
  refine ⟨fun p => ?_, fun p rest h => ?_, by decide, by decide⟩
  · unfold infer_resource inferL
    simp [Option.map_eq_none', List.getLast?_eq_none_iff, List.filter_eq_nil_iff,
      or_iff_not_imp_left]
  · unfold infer_resource inferL
    rw [h, generic_pathL_slash_cons, splitSlash_slash_cons, List.filter_cons]
    simp [List.getLast?_isSome, guidStr, typeStr]

/-- Witness for the C10 theorem's hypothesis at a concrete path. -/
theorem infer_resource_empty_name_behaviour_witness :
    ("/v3".data = '/' :: ['v', '3']) ∧ (infer_resource "/v3").isSome = true :=
  ⟨rfl, infer_resource_empty_name_behaviour.2.1 "/v3" ['v', '3'] rfl⟩

/-! ## Fuel lemmas for the guid scanner -/

theorem hexRun_length : ∀ (n : Nat) {l r : List Char}, hexRun n l = some r →
    r.length + n = l.length := by
  intro n
  induction n with
  | zero =>
    intro l r h
    simp [hexRun] at h
    subst h
    rfl
  | succ n ih =>
    intro l r h
    cases l with
    | nil => simp [hexRun] at h
    | cons c cs =>
      by_cases hc : isHexChar c = true
      · simp [hexRun, hc] at h
        have := ih h
        simp [List.length_cons]
        omega
      · simp [hexRun, hc] at h

theorem dashRun_length {l r : List Char} (h : dashRun l = some r) :
    r.length + 1 = l.length := by
  cases l with
  | nil => simp [dashRun] at h
  | cons c cs =>
    by_cases hc : c = '-'
    · simp [dashRun, hc] at h
      subst h
      rfl
    · simp [dashRun, hc] at h

theorem bind_some_elim {o : Option (List Char)} {f : List Char → Option (List Char)}
    {r : List Char} (h : (o >>= f) = some r) : ∃ a, o = some a ∧ f a = some r := by
  cases o with
  | none => simp at h
  | some a => exact ⟨a, rfl, h⟩

theorem matchGuid_length {l r : List Char} (h : matchGuid l = some r) :
    r.length + 36 = l.length := by
  unfold matchGuid at h
  obtain ⟨r8, h8, e9⟩ := bind_some_elim h
  obtain ⟨r7, h7, e8⟩ := bind_some_elim h8
  obtain ⟨r6, h6, e7⟩ := bind_some_elim h7
  obtain ⟨r5, h5, e6⟩ := bind_some_elim h6
  obtain ⟨r4, h4, e5⟩ := bind_some_elim h5
  obtain ⟨r3, h3, e4⟩ := bind_some_elim h4
  obtain ⟨r2, h2, e3⟩ := bind_some_elim h3
  obtain ⟨r1, e1, e2⟩ := bind_some_elim h2
  have l1 := hexRun_length 8 e1
  have l2 := dashRun_length e2
  have l3 := hexRun_length 4 e3
  have l4 := dashRun_length e4
  have l5 := hexRun_length 4 e5
  have l6 := dashRun_length e6
  have l7 := hexRun_length 4 e7
  have l8 := dashRun_length e8
  have l9 := hexRun_length 12 e9
  omega

theorem guidSubF_nil : ∀ f, guidSubF f [] = [] := by
  intro f
  cases f <;> rfl

theorem guidSubF_fuel : ∀ (f g : Nat) (cs : List Char), cs.length ≤ f →
    cs.length ≤ g → guidSubF f cs = guidSubF g cs := by
  intro f
  induction f with
  | zero =>
    intro g cs hf hg
    have : cs = [] := List.length_eq_zero.mp (Nat.le_zero.mp hf)
    subst this
    rw [guidSubF_nil, guidSubF_nil]
  | succ f ih =>
    intro g cs hf hg
    cases cs with
    | nil => rw [guidSubF_nil, guidSubF_nil]
    | cons c cs' =>
      cases g with
      | zero => simp at hg
      | succ g' =>
        cases hm : matchGuid (c :: cs') with
        | none =>
          simp only [guidSubF, hm, Option.elim_none]
          exact congrArg _ (ih g' cs' (by simpa using hf) (by simpa using hg))
        | some rest =>
          have hr := matchGuid_length hm
          simp only [List.length_cons] at hf hg hr
          simp only [guidSubF, hm, Option.elim_some]
          exact congrArg _ (ih g' rest (by omega) (by omega))

theorem guidSubF_eq_guidSubL {f : Nat} {cs : List Char} (h : cs.length ≤ f) :
    guidSubF f cs = guidSubL cs :=
  guidSubF_fuel f cs.length cs h (Nat.le_refl _)

theorem guidSubL_cons_none {c : Char} {cs : List Char}
    (hm : matchGuid (c :: cs) = none) : guidSubL (c :: cs) = c :: guidSubL cs := by
  unfold guidSubL
  rw [List.length_cons, guidSubF, hm]
  rfl

theorem guidSubL_cons_some {c : Char} {cs rest : List Char}
    (hm : matchGuid (c :: cs) = some rest) :
    guidSubL (c :: cs) = guidStr ++ guidSubL rest := by
  have hr := matchGuid_length hm
  unfold guidSubL
  rw [List.length_cons, guidSubF, hm, Option.elim_some]
  exact congrArg _ (guidSubF_eq_guidSubL (by simp at hr ⊢; omega))

theorem guidSubL_of_no_match {cs : List Char} (h : hasGuidMatch cs = false) :
    guidSubL cs = cs := by
  induction cs with
  | nil => rfl
  | cons c cs' ih =>
    simp only [hasGuidMatch, Bool.or_eq_false_iff] at h
    obtain ⟨h1, h2⟩ := h
    rw [guidSubL_cons_none (Option.not_isSome_iff_eq_none.mp (by simp [h1])), ih h2]

/-! ## Fuel lemmas for the web replacer -/

theorem replaceWebF_nil : ∀ f, replaceWebF f [] = [] := by
  intro f
  cases f <;> rfl

theorem startsWithWeb_elim {cs : List Char} (h : startsWithWeb cs = true) :
    ∃ rest, cs = 'w' :: 'e' :: 'b' :: rest := by
  rcases cs with _ | ⟨a, _ | ⟨b, _ | ⟨c, rest⟩⟩⟩ <;>
    simp [startsWithWeb, isPrefixL] at h
  obtain ⟨h1, h2, h3⟩ := h
  subst h1; subst h2; subst h3
  exact ⟨rest, rfl⟩

theorem replaceWebF_cons_web (f : Nat) (rest : List Char) :
    replaceWebF (f + 1) ('w' :: 'e' :: 'b' :: rest) = typeStr ++ replaceWebF f rest := by
  rw [replaceWebF]
  rfl

theorem replaceWebF_cons_noweb (f : Nat) {c : Char} {cs : List Char}
    (hw : startsWithWeb (c :: cs) = false) :
    replaceWebF (f + 1) (c :: cs) = c :: replaceWebF f cs := by
  rw [replaceWebF, hw]
  rfl

theorem replaceWebF_fuel : ∀ (f g : Nat) (cs : List Char), cs.length ≤ f →
    cs.length ≤ g → replaceWebF f cs = replaceWebF g cs := by
  intro f
  induction f with
  | zero =>
    intro g cs hf hg
    have : cs = [] := List.length_eq_zero.mp (Nat.le_zero.mp hf)
    subst this
    rw [replaceWebF_nil, replaceWebF_nil]
  | succ f ih =>
    intro g cs hf hg
    cases cs with
    | nil => rw [replaceWebF_nil, replaceWebF_nil]
    | cons c cs' =>
      cases g with
      | zero => simp at hg
      | succ g' =>
        simp only [List.length_cons] at hf hg
        cases hw : startsWithWeb (c :: cs') with
        | false =>
          rw [replaceWebF_cons_noweb f hw, replaceWebF_cons_noweb g' hw]
          exact congrArg _ (ih g' cs' (by omega) (by omega))
        | true =>
          obtain ⟨rest, hrest⟩ := startsWithWeb_elim hw
          cases hrest
          simp only [List.length_cons] at hf hg
          rw [replaceWebF_cons_web f rest, replaceWebF_cons_web g' rest]
          exact congrArg _ (ih g' rest (by omega) (by omega))

theorem replaceWebF_eq_replaceWebL {f : Nat} {cs : List Char} (h : cs.length ≤ f) :
    replaceWebF f cs = replaceWebL cs :=
  replaceWebF_fuel f cs.length cs h (Nat.le_refl _)

theorem replaceWebL_cons_web (rest : List Char) :
    replaceWebL ('w' :: 'e' :: 'b' :: rest) = typeStr ++ replaceWebL rest := by
  unfold replaceWebL
  simp only [List.length_cons]
  rw [replaceWebF_cons_web]
  exact congrArg _ (replaceWebF_eq_replaceWebL (by omega))

theorem replaceWebL_cons_noweb {c : Char} {cs : List Char}
    (hw : startsWithWeb (c :: cs) = false) :
    replaceWebL (c :: cs) = c :: replaceWebL cs := by
  unfold replaceWebL
  simp only [List.length_cons]
  rw [replaceWebF_cons_noweb _ hw]

theorem replaceWebL_of_no_web {cs : List Char}
    (h : hasSubstrL ['w', 'e', 'b'] cs = false) : replaceWebL cs = cs := by
  induction cs with
  | nil => rfl
  | cons c cs' ih =>
    simp only [hasSubstrL, Bool.or_eq_false_iff] at h
    obtain ⟨h1, h2⟩ := h
    rw [replaceWebL_cons_noweb h1, ih h2]

theorem isPrefixB_replaceWebF : ∀ (f : Nat) (cs : List Char),
    isPrefixL ['b'] (replaceWebF f cs) = true → isPrefixL ['b'] cs = true := by
  intro f cs h
  cases f with
  | zero => exact h
  | succ f =>
    cases cs with
    | nil => rw [replaceWebF_nil] at h; simp [isPrefixL] at h
    | cons c cs' =>
      cases hw : startsWithWeb (c :: cs') with
      | true =>
        obtain ⟨rest, hrest⟩ := startsWithWeb_elim hw
        cases hrest
        rw [replaceWebF_cons_web] at h
        simp [typeStr, isPrefixL] at h
      | false =>
        rw [replaceWebF_cons_noweb f hw] at h
        simp only [isPrefixL] at h ⊢
        simp at h ⊢
        exact h

theorem isPrefixEB_replaceWebF : ∀ (f : Nat) (cs : List Char),
    isPrefixL ['e', 'b'] (replaceWebF f cs) = true → isPrefixL ['e', 'b'] cs = true := by
  intro f cs h
  cases f with
  | zero => exact h
  | succ f =>
    cases cs with
    | nil => rw [replaceWebF_nil] at h; simp [isPrefixL] at h
    | cons c cs' =>
      cases hw : startsWithWeb (c :: cs') with
      | true =>
        obtain ⟨rest, hrest⟩ := startsWithWeb_elim hw
        cases hrest
        rw [replaceWebF_cons_web] at h
        simp [typeStr, isPrefixL] at h
      | false =>
        rw [replaceWebF_cons_noweb f hw] at h
        simp only [isPrefixL] at h ⊢
        simp at h ⊢
        exact ⟨h.1, isPrefixB_replaceWebF f cs' (by simp [isPrefixL, h.2])⟩

theorem no_web_in_replaceWebF : ∀ (f : Nat) (cs : List Char), cs.length ≤ f →
    hasSubstrL ['w', 'e', 'b'] (replaceWebF f cs) = false := by
  intro f
  induction f with
  | zero =>
    intro cs hf
    have : cs = [] := List.length_eq_zero.mp (Nat.le_zero.mp hf)
    subst this
    rfl
  | succ f ih =>
    intro cs hf
    cases cs with
    | nil => rw [replaceWebF_nil]; rfl
    | cons c cs' =>
      simp only [List.length_cons] at hf
      cases hw : startsWithWeb (c :: cs') with
      | true =>
        obtain ⟨rest, hrest⟩ := startsWithWeb_elim hw
        cases hrest
        simp only [List.length_cons] at hf
        rw [replaceWebF_cons_web]
        have := ih rest (by omega)
        simp [typeStr, hasSubstrL, isPrefixL]
        exact this
      | false =>
        rw [replaceWebF_cons_noweb f hw]
        have hR := ih cs' (by omega)
        simp only [hasSubstrL, Bool.or_eq_false_iff]
        refine ⟨?_, hR⟩
        by_cases hc : c = 'w'
        · subst hc
          simp only [isPrefixL]
          simp only [decide_True, Bool.true_and]
          cases heb : isPrefixL ['e', 'b'] (replaceWebF f cs') with
          | false => rfl
          | true =>
            exfalso
            have : isPrefixL ['e', 'b'] cs' = true := isPrefixEB_replaceWebF f cs' heb
            rw [show startsWithWeb ('w' :: cs') = isPrefixL ['w', 'e', 'b'] ('w' :: cs') from rfl] at hw
            simp [isPrefixL, this] at hw
        · simp only [isPrefixL]
          simp [hc]
          exact fun hwc => absurd hwc.symm hc

theorem no_web_in_replaceWebL (cs : List Char) :
    hasSubstrL ['w', 'e', 'b'] (replaceWebL cs) = false :=
  no_web_in_replaceWebF cs.length cs (Nat.le_refl _)

/-- C9 (amended): `generic_path` is idempotent on every path whose
canonical form contains no residual `guid_pattern` occurrence (the
substitution can manufacture a fresh match out of the trailing `d` of the
inserted `:guid` placeholder, which is what breaks full idempotence); in
particular the placeholder tokens `:guid` and `:type` themselves are
stable under re-normalization. -/
theorem generic_path_idempotent_of_no_residual_match :
    ∀ p : String, hasGuidMatch (generic_pathL p.data) = false →
    generic_path (generic_path p) = generic_path p := by
  intro p h
  show (⟨generic_pathL (generic_pathL p.data)⟩ : String) = ⟨generic_pathL p.data⟩
  have h1 : generic_pathL (generic_pathL p.data) = generic_pathL p.data := by
    show replaceWebL (guidSubL (generic_pathL p.data)) = generic_pathL p.data
    rw [guidSubL_of_no_match h]
    exact replaceWebL_of_no_web (no_web_in_replaceWebL (guidSubL p.data))
  rw [h1]

/-- Witness for the C9 theorem's hypothesis at a concrete path. -/
theorem generic_path_idempotent_of_no_residual_match_witness :
    hasGuidMatch (generic_pathL
      "/v3/apps/11111111-1111-1111-1111-111111111111/web".data) = false ∧
    generic_path (generic_path "/v3/apps/11111111-1111-1111-1111-111111111111/web") =
      generic_path "/v3/apps/11111111-1111-1111-1111-111111111111/web" :=
  ⟨by decide,
    generic_path_idempotent_of_no_residual_match
      "/v3/apps/11111111-1111-1111-1111-111111111111/web" (by decide)⟩

/-! ## The scanners treat `/`-separated segments independently

No character of `guid_pattern` and no character of the literal `web` can
be a `/`, so neither substitution ever matches across a segment
boundary: both distribute over `/`. -/

theorem hexRun_append_slash : ∀ (n : Nat) (x y : List Char),
    hexRun n (x ++ '/' :: y) = Option.map (fun r => r ++ '/' :: y) (hexRun n x) := by
  intro n
  induction n with
  | zero => intro x y; rfl
  | succ n ih =>
    intro x y
    cases x with
    | nil => rfl
    | cons c x' =>
      by_cases hc : isHexChar c = true
      · show hexRun (n + 1) (c :: (x' ++ '/' :: y)) = _
        simp [hexRun, hc, ih]
      · show hexRun (n + 1) (c :: (x' ++ '/' :: y)) = _
        simp [hexRun, hc]

theorem dashRun_append_slash : ∀ (x y : List Char),
    dashRun (x ++ '/' :: y) = Option.map (fun r => r ++ '/' :: y) (dashRun x) := by
  intro x y
  cases x with
  | nil => rfl
  | cons c x' =>
    by_cases hc : c = '-'
    · simp [dashRun, hc]
    · simp [dashRun, hc]

theorem bind_append_slash (h1 h2 : List Char → Option (List Char))
    (H1 : ∀ x y, h1 (x ++ '/' :: y) = Option.map (fun r => r ++ '/' :: y) (h1 x))
    (H2 : ∀ x y, h2 (x ++ '/' :: y) = Option.map (fun r => r ++ '/' :: y) (h2 x)) :
    ∀ x y, (h1 (x ++ '/' :: y) >>= h2) =
      Option.map (fun r => r ++ '/' :: y) (h1 x >>= h2) := by
  intro x y
  rw [H1]
  cases h1 x with
  | none => rfl
  | some r =>
    show h2 (r ++ '/' :: y) = _
    rw [H2]
    rfl

theorem matchGuid_append_slash : ∀ (x y : List Char),
    matchGuid (x ++ '/' :: y) = Option.map (fun r => r ++ '/' :: y) (matchGuid x) := by
  have s1 := bind_append_slash (hexRun 8) dashRun (hexRun_append_slash 8) dashRun_append_slash
  have s2 := bind_append_slash (fun z => hexRun 8 z >>= dashRun) (hexRun 4) s1
    (hexRun_append_slash 4)
  have s3 := bind_append_slash (fun z => hexRun 8 z >>= dashRun >>= hexRun 4) dashRun s2
    dashRun_append_slash
  have s4 := bind_append_slash (fun z => hexRun 8 z >>= dashRun >>= hexRun 4 >>= dashRun)
    (hexRun 4) s3 (hexRun_append_slash 4)
  have s5 := bind_append_slash
    (fun z => hexRun 8 z >>= dashRun >>= hexRun 4 >>= dashRun >>= hexRun 4) dashRun s4
    dashRun_append_slash
  have s6 := bind_append_slash
    (fun z => hexRun 8 z >>= dashRun >>= hexRun 4 >>= dashRun >>= hexRun 4 >>= dashRun)
    (hexRun 4) s5 (hexRun_append_slash 4)
  have s7 := bind_append_slash
    (fun z => hexRun 8 z >>= dashRun >>= hexRun 4 >>= dashRun >>= hexRun 4 >>= dashRun >>=
      hexRun 4) dashRun s6 dashRun_append_slash
  have s8 := bind_append_slash
    (fun z => hexRun 8 z >>= dashRun >>= hexRun 4 >>= dashRun >>= hexRun 4 >>= dashRun >>=
      hexRun 4 >>= dashRun) (hexRun 12) s7 (hexRun_append_slash 12)
  exact s8

theorem guidSubF_append_slash : ∀ (f : Nat) (x y : List Char),
    x.length + y.length + 1 ≤ f →
    guidSubF f (x ++ '/' :: y) = guidSubL x ++ '/' :: guidSubL y := by
  intro f
  induction f with
  | zero => intro x y h; exact absurd h (by omega)
  | succ f ih =>
    intro x y h
    cases x with
    | nil =>
      have hm : matchGuid ('/' :: y) = none := rfl
      show guidSubF (f + 1) ('/' :: y) = _
      rw [guidSubF, hm, Option.elim_none,
        guidSubF_eq_guidSubL (show y.length ≤ f by simp at h; omega)]
      rfl
    | cons c x' =>
      have hms := matchGuid_append_slash (c :: x') y
      simp only [List.length_cons] at h
      cases hm : matchGuid (c :: x') with
      | none =>
        have hm2 : matchGuid (c :: (x' ++ '/' :: y)) = none := by
          rw [show (c :: (x' ++ '/' :: y)) = (c :: x') ++ '/' :: y from rfl, hms, hm]
          rfl
        show guidSubF (f + 1) (c :: (x' ++ '/' :: y)) = _
        rw [guidSubF, hm2, Option.elim_none, ih x' y (by omega),
          guidSubL_cons_none hm]
        rfl
      | some rest =>
        have hr := matchGuid_length hm
        simp only [List.length_cons] at hr
        have hm2 : matchGuid (c :: (x' ++ '/' :: y)) = some (rest ++ '/' :: y) := by
          rw [show (c :: (x' ++ '/' :: y)) = (c :: x') ++ '/' :: y from rfl, hms, hm]
          rfl
        show guidSubF (f + 1) (c :: (x' ++ '/' :: y)) = _
        rw [guidSubF, hm2, Option.elim_some, ih rest y (by omega),
          guidSubL_cons_some hm]
        simp [List.append_assoc]

theorem guidSubL_append_slash (x y : List Char) :
    guidSubL (x ++ '/' :: y) = guidSubL x ++ '/' :: guidSubL y :=
  guidSubF_append_slash _ x y (by simp; omega)

theorem startsWithWeb_append_slash : ∀ (x y : List Char),
    startsWithWeb (x ++ '/' :: y) = startsWithWeb x := by
  intro x y
  rcases x with _ | ⟨a, _ | ⟨b, _ | ⟨c, x'⟩⟩⟩ <;> simp [startsWithWeb, isPrefixL]

theorem replaceWebF_append_slash : ∀ (f : Nat) (x y : List Char),
    x.length + y.length + 1 ≤ f →
    replaceWebF f (x ++ '/' :: y) = replaceWebL x ++ '/' :: replaceWebL y := by
  intro f
  induction f with
  | zero => intro x y h; exact absurd h (by omega)
  | succ f ih =>
    intro x y h
    cases x with
    | nil =>
      have hw : startsWithWeb ('/' :: y) = false := rfl
      show replaceWebF (f + 1) ('/' :: y) = _
      rw [replaceWebF_cons_noweb f hw,
        replaceWebF_eq_replaceWebL (show y.length ≤ f by simp at h; omega)]
      rfl
    | cons c x' =>
      simp only [List.length_cons] at h
      cases hw : startsWithWeb (c :: x') with
      | false =>
        have hw2 : startsWithWeb (c :: (x' ++ '/' :: y)) = false := by
          rw [show (c :: (x' ++ '/' :: y)) = (c :: x') ++ '/' :: y from rfl,
            startsWithWeb_append_slash, hw]
        show replaceWebF (f + 1) (c :: (x' ++ '/' :: y)) = _
        rw [replaceWebF_cons_noweb f hw2, ih x' y (by omega),
          replaceWebL_cons_noweb hw]
        rfl
      | true =>
        obtain ⟨rest, hrest⟩ := startsWithWeb_elim hw
        cases hrest
        simp only [List.length_cons] at h
        show replaceWebF (f + 1) ('w' :: 'e' :: 'b' :: (rest ++ '/' :: y)) = _
        rw [replaceWebF_cons_web f, ih rest y (by omega), replaceWebL_cons_web]
        simp [List.append_assoc]

theorem replaceWebL_append_slash (x y : List Char) :
    replaceWebL (x ++ '/' :: y) = replaceWebL x ++ '/' :: replaceWebL y :=
  replaceWebF_append_slash _ x y (by simp; omega)

theorem generic_pathL_append_slash (x y : List Char) :
    generic_pathL (x ++ '/' :: y) = generic_pathL x ++ '/' :: generic_pathL y := by
  unfold generic_pathL
  rw [guidSubL_append_slash, replaceWebL_append_slash]

/-! ## C5: canonicalization equivalence -/

theorem guidSubL_uuid {u : List Char} (h : isUuidSeg u = true) :
    guidSubL u = guidStr := by
  have hm : matchGuid u = some [] := by simpa [isUuidSeg] using h
  have hl := matchGuid_length hm
  cases u with
  | nil => simp at hl
  | cons c u' =>
    rw [guidSubL_cons_some hm]
    decide

theorem generic_pathL_uuid {u : List Char} (h : isUuidSeg u = true) :
    generic_pathL u = guidStr := by
  unfold generic_pathL
  rw [guidSubL_uuid h]
  decide

theorem generic_pathL_joinSlash_congr :
    ∀ (s1 s2 : List (List Char)),
    List.Forall₂ (fun a b => a = b ∨ (isUuidSeg a = true ∧ isUuidSeg b = true)) s1 s2 →
    generic_pathL (joinSlash s1) = generic_pathL (joinSlash s2) := by
  intro s1
  induction s1 with
  | nil =>
    intro s2 h
    cases h
    rfl
  | cons a t1 ih =>
    intro s2 h
    rw [List.forall₂_cons_left_iff] at h
    obtain ⟨b, t2, hab, htail, rfl⟩ := h
    have hhead : generic_pathL a = generic_pathL b := by
      rcases hab with rfl | ⟨ha, hb⟩
      · rfl
      · rw [generic_pathL_uuid ha, generic_pathL_uuid hb]
    cases t1 with
    | nil =>
      rw [List.forall₂_nil_left_iff] at htail
      subst htail
      exact hhead
    | cons c ts =>
      obtain ⟨d, ts2, _, _, rfl⟩ := List.forall₂_cons_left_iff.mp htail
      show generic_pathL (a ++ '/' :: joinSlash (c :: ts)) =
        generic_pathL (b ++ '/' :: joinSlash (d :: ts2))
      rw [generic_pathL_append_slash, generic_pathL_append_slash, hhead,
        ih (d :: ts2) htail]

/-- C5: two paths that differ only in the values of whole-segment UUIDs
(case-insensitively) have the same canonical path; in particular
`/v3/apps/⟨uuid₁⟩/web`, `/v3/apps/⟨uuid₂⟩/web` and an upper-case variant
all normalize to `/v3/apps/:guid/:type`. -/
theorem generic_path_guid_equivalence :
    (∀ segs1 segs2 : List (List Char),
      List.Forall₂ (fun a b => a = b ∨ (isUuidSeg a = true ∧ isUuidSeg b = true))
        segs1 segs2 →
      generic_path ⟨joinSlash segs1⟩ = generic_path ⟨joinSlash segs2⟩) ∧
    generic_path "/v3/apps/11111111-1111-1111-1111-111111111111/web" =
      "/v3/apps/:guid/:type" ∧
    generic_path "/v3/apps/22222222-2222-2222-2222-222222222222/web" =
      "/v3/apps/:guid/:type" ∧
    generic_path "/v3/apps/AAAAAAAA-AAAA-AAAA-AAAA-AAAAAAAAAAAA/web" =
      "/v3/apps/:guid/:type" := by
  refine ⟨fun s1 s2 h => ?_, by decide, by decide, by decide⟩
  show (⟨generic_pathL (joinSlash s1)⟩ : String) = ⟨generic_pathL (joinSlash s2)⟩
  rw [generic_pathL_joinSlash_congr s1 s2 h]

/-- Witness for the C5 theorem's hypothesis at two concrete segment
lists differing only in their UUID segment. -/
theorem generic_path_guid_equivalence_witness :
    List.Forall₂ (fun a b => a = b ∨ (isUuidSeg a = true ∧ isUuidSeg b = true))
      [[], ['v', '3'], "apps".data,
        "11111111-1111-1111-1111-111111111111".data, "web".data]
      [[], ['v', '3'], "apps".data,
        "22222222-2222-2222-2222-222222222222".data, "web".data] ∧
    generic_path ⟨joinSlash [[], ['v', '3'], "apps".data,
      "11111111-1111-1111-1111-111111111111".data, "web".data]⟩ =
    generic_path ⟨joinSlash [[], ['v', '3'], "apps".data,
      "22222222-2222-2222-2222-222222222222".data, "web".data]⟩ := by
  have hrel : List.Forall₂ (fun a b => a = b ∨ (isUuidSeg a = true ∧ isUuidSeg b = true))
      [[], ['v', '3'], "apps".data,
        "11111111-1111-1111-1111-111111111111".data, "web".data]
      [[], ['v', '3'], "apps".data,
        "22222222-2222-2222-2222-222222222222".data, "web".data] :=
    .cons (.inl rfl) (.cons (.inl rfl) (.cons (.inl rfl)
      (.cons (.inr ⟨by decide, by decide⟩) (.cons (.inl rfl) .nil))))
  exact ⟨hrel, generic_path_guid_equivalence.1 _ _ hrel⟩

/-! ## Crawler state lemmas -/

theorem contains_iff_mem {s : List String} {x : String} :
    s.contains x = true ↔ x ∈ s :=
  List.elem_iff

theorem not_mem_of_contains_false {s : List String} {x : String}
    (h : s.contains x = false) : x ∉ s := by
  intro hm
  have := contains_iff_mem.mpr hm
  rw [h] at this
  cases this

theorem mem_addToSet_self (s : List String) (x : String) : x ∈ addToSet s x := by
  unfold addToSet
  by_cases h : s.contains x = true
  · rw [if_pos h]
    exact contains_iff_mem.mp h
  · rw [if_neg h]
    simp

theorem mem_addToSet_of_mem {s : List String} {x y : String} (h : y ∈ s) :
    y ∈ addToSet s x := by
  unfold addToSet
  by_cases hc : s.contains x = true
  · rw [if_pos hc]
    exact h
  · rw [if_neg hc]
    exact List.mem_append_left _ h

theorem StateLe_refl (st : CrawlState) : StateLe st st :=
  ⟨⟨[], by simp⟩, fun _ h => h, fun _ h => h, fun _ _ _ h => h, ⟨[], by simp⟩⟩

theorem StateLe_trans {a b c : CrawlState} (h1 : StateLe a b) (h2 : StateLe b c) :
    StateLe a c := by
  obtain ⟨⟨t1, hf1⟩, hv1, hn1, hl1, ⟨u1, he1⟩⟩ := h1
  obtain ⟨⟨t2, hf2⟩, hv2, hn2, hl2, ⟨u2, he2⟩⟩ := h2
  exact ⟨⟨t1 ++ t2, by rw [hf2, hf1, List.append_assoc]⟩,
    fun x hx => hv2 x (hv1 x hx),
    fun n hn => hn2 n (hn1 n hn),
    fun s d n hh => hl2 s d n (hl1 s d n hh),
    ⟨u1 ++ u2, by rw [he2, he1, List.append_assoc]⟩⟩

theorem addNodeIfAbsent_edges (g : ResourceGraph) (n : String) (v3 : Bool) :
    (addNodeIfAbsent g n v3).edges = g.edges := by
  unfold addNodeIfAbsent add_resource
  by_cases h : has_resource g n = true <;> simp [h]

theorem has_resource_addNodeIfAbsent_self (g : ResourceGraph) (n : String) (v3 : Bool) :
    has_resource (addNodeIfAbsent g n v3) n = true := by
  unfold addNodeIfAbsent
  by_cases h : has_resource g n = true <;> simp [h, has_resource_add_resource_self]

theorem has_resource_addNodeIfAbsent_mono (g : ResourceGraph) (n : String) (v3 : Bool)
    (m : String) (h : has_resource g m = true) :
    has_resource (addNodeIfAbsent g n v3) m = true := by
  unfold addNodeIfAbsent
  by_cases hn : has_resource g n = true
  · rw [if_pos hn]
    exact h
  · rw [if_neg hn]
    show dcontains (dinsert g.vertices n g.vNames.length) m = true
    exact dcontains_dinsert_of_dcontains _ _ _ _ h

theorem has_link_addNodeIfAbsent (g : ResourceGraph) (n : String) (v3 : Bool)
    (s d nm : String) :
    has_link (addNodeIfAbsent g n v3) s d nm = has_link g s d nm := by
  unfold has_link
  rw [addNodeIfAbsent_edges]

theorem add_link_some_elim {g g' : ResourceGraph} {s d n : String}
    (h : add_link g s d n = some g') :
    g'.vertices = g.vertices ∧
    g'.edges = dinsert g.edges (edge_id s d n) g.eEnds.length := by
  unfold add_link at h
  split at h
  · injection h with h
    subst h
    exact ⟨rfl, rfl⟩
  · cases h

theorem addLinkIfAbsent_elim {g g' : ResourceGraph} {s d n : String}
    (h : addLinkIfAbsent g s d n = some g') :
    g'.vertices = g.vertices ∧ has_link g' s d n = true ∧
    (∀ s' d' n', has_link g s' d' n' = true → has_link g' s' d' n' = true) := by
  unfold addLinkIfAbsent at h
  by_cases hl : has_link g s d n = true
  · rw [if_pos hl] at h
    injection h with h
    subst h
    exact ⟨rfl, hl, fun _ _ _ hh => hh⟩
  · rw [if_neg hl] at h
    obtain ⟨hv, he⟩ := add_link_some_elim h
    refine ⟨hv, ?_, ?_⟩
    · unfold has_link
      rw [he]
      exact dcontains_dinsert_self _ _ _
    · intro s' d' n' hh
      unfold has_link at hh ⊢
      rw [he]
      exact dcontains_dinsert_of_dcontains _ _ _ _ hh

/-! ## The crawl only grows its state -/

theorem processLinks_mono (recurse : CrawlState → String → Except CrawlErr CrawlState)
    (rn : String)
    (hrec : ∀ st r st', recurse st r = .ok st' → StateLe st st') :
    ∀ (links : List Link) (st st' : CrawlState),
    processLinks recurse rn st links = .ok st' → StateLe st st' := by
  intro links
  induction links with
  | nil =>
    intro st st' h
    unfold processLinks at h
    cases h
    exact StateLe_refl _
  | cons link rest ih =>
    intro st st' h
    unfold processLinks at h
    split at h
    · exact absurd h (by simp)
    · rename_i linked hinf
      split at h
      · exact absurd h (by simp)
      · rename_i g2 hal
        have hgle : StateLe st { st with graph := g2 } := by
          obtain ⟨hv, hlnew, hmono⟩ := addLinkIfAbsent_elim hal
          refine ⟨⟨[], by simp⟩, fun x hx => hx, ?_, ?_, ⟨[], by simp⟩⟩
          · intro m hm
            show has_resource g2 m = true
            have h1 : has_resource (addNodeIfAbsent st.graph linked link.is_v3) m = true :=
              has_resource_addNodeIfAbsent_mono _ _ _ _ hm
            unfold has_resource at h1 ⊢
            rw [hv]
            exact h1
          · intro s d n hn
            apply hmono
            rw [has_link_addNodeIfAbsent]
            exact hn
        split at h
        · split at h
          · rename_i st3 hr
            exact StateLe_trans (StateLe_trans hgle (hrec _ _ _ hr)) (ih _ _ h)
          · exact absurd h (by simp)
        · exact StateLe_trans hgle (ih _ _ h)

theorem crawl_mono (api : String → Doc) :
    ∀ (fuel : Nat) (st : CrawlState) (root : String) (st' : CrawlState),
    crawl api fuel st root = .ok st' → StateLe st st' := by
  intro fuel
  induction fuel with
  | zero =>
    intro st root st' h
    exact absurd h (by simp [crawl])
  | succ fuel ih =>
    intro st root st' h
    unfold crawl at h
    split at h
    · exact absurd h (by simp)
    · rename_i rn hinf
      split at h
      · exact absurd h (by simp)
      · rename_i links hgl
        refine StateLe_trans ?_ (processLinks_mono _ rn ih links _ st' h)
        refine ⟨⟨[root], rfl⟩, fun x hx => mem_addToSet_of_mem hx, ?_, ?_,
          ⟨[generic_path root], rfl⟩⟩
        · intro n hn
          exact has_resource_addNodeIfAbsent_mono _ _ _ _ hn
        · intro s d n hn
          show has_link (addNodeIfAbsent st.graph rn true) s d n = true
          rw [has_link_addNodeIfAbsent]
          exact hn

/-! ## Counting unvisited canonical paths -/

theorem mem_addToSet_elim {s : List String} {x y : String} (h : y ∈ addToSet s x) :
    y ∈ s ∨ y = x := by
  unfold addToSet at h
  by_cases hc : s.contains x = true
  · rw [if_pos hc] at h
    exact Or.inl h
  · rw [if_neg hc] at h
    rcases List.mem_append.mp h with h1 | h1
    · exact Or.inl h1
    · exact Or.inr (List.mem_singleton.mp h1)

theorem unvisitedCount_mono {allP v v' : List String} (h : ∀ x ∈ v, x ∈ v') :
    unvisitedCount allP v' ≤ unvisitedCount allP v := by
  unfold unvisitedCount
  induction allP with
  | nil => exact Nat.le_refl _
  | cons a l ih =>
    rw [List.filter_cons, List.filter_cons]
    cases hc' : v'.contains a with
    | true =>
      cases hc : v.contains a with
      | true => simpa using ih
      | false =>
        simp at ih ⊢
        omega
    | false =>
      have hc : v.contains a = false := by
        cases hcv : v.contains a with
        | false => rfl
        | true =>
          have : a ∈ v' := h a (contains_iff_mem.mp hcv)
          rw [contains_iff_mem.mpr this] at hc'
          cases hc'
      rw [hc]
      simp at ih ⊢
      omega

theorem unvisitedCount_addToSet_lt {allP v : List String} {c : String}
    (hc : c ∈ allP) (hnc : v.contains c = false) :
    unvisitedCount allP (addToSet v c) < unvisitedCount allP v := by
  induction allP with
  | nil => cases hc
  | cons a l ih =>
    unfold unvisitedCount
    rw [List.filter_cons, List.filter_cons]
    by_cases hac : a = c
    · subst hac
      have h1 : (addToSet v a).contains a = true :=
        contains_iff_mem.mpr (mem_addToSet_self v a)
      have h2 : unvisitedCount l (addToSet v a) ≤ unvisitedCount l v :=
        unvisitedCount_mono (fun x hx => mem_addToSet_of_mem hx)
      unfold unvisitedCount at h2
      rw [h1, hnc]
      simp at h2 ⊢
      omega
    · have hcl : c ∈ l := by
        rcases List.mem_cons.mp hc with h1 | h1
        · exact absurd h1.symm hac
        · exact h1
      have heq : (addToSet v c).contains a = v.contains a := by
        cases hva : v.contains a with
        | true => exact contains_iff_mem.mpr (mem_addToSet_of_mem (contains_iff_mem.mp hva))
        | false =>
          cases hva' : (addToSet v c).contains a with
          | false => rfl
          | true =>
            rcases mem_addToSet_elim (contains_iff_mem.mp hva') with h1 | h1
            · rw [contains_iff_mem.mpr h1] at hva
              cases hva
            · exact absurd h1 hac
      have ih' := ih hcl
      unfold unvisitedCount at ih'
      rw [heq]
      cases v.contains a <;> simp at ih' ⊢ <;> omega

theorem unvisitedCount_nil (allP : List String) :
    unvisitedCount allP [] = allP.length := by
  unfold unvisitedCount
  induction allP with
  | nil => rfl
  | cons a l ih =>
    rw [List.filter_cons]
    have : ([] : List String).contains a = false := rfl
    simp only [this, Bool.not_false, if_true, List.length_cons]
    omega

/-! ## Termination: enough fuel is never exhausted -/

theorem processLinks_no_fuelOut
    (recurse : CrawlState → String → Except CrawlErr CrawlState)
    (rn : String) (allP : List String) (B : Nat)
    (hrecmono : ∀ st r st', recurse st r = .ok st' → StateLe st st')
    (hrec : ∀ st r, generic_path r ∈ allP →
      st.visited.contains (generic_path r) = false →
      unvisitedCount allP st.visited ≤ B → recurse st r ≠ .error .fuelOut) :
    ∀ (links : List Link) (st : CrawlState),
    (∀ l ∈ links, generic_path (Link.path l) ∈ allP) →
    unvisitedCount allP st.visited ≤ B →
    processLinks recurse rn st links ≠ .error .fuelOut := by
  intro links
  induction links with
  | nil =>
    intro st _ _ h
    unfold processLinks at h
    exact Except.noConfusion h
  | cons link rest ih =>
    intro st hl hB h
    unfold processLinks at h
    split at h
    · simp at h
    · rename_i linked hinf
      split at h
      · simp at h
      · rename_i g2 hal
        split at h
        · rename_i hcond
          simp only [Bool.and_eq_true, Bool.not_eq_true'] at hcond
          have hcont : st.visited.contains (generic_path link.path) = false := hcond.2
          split at h
          · rename_i st3 hr
            have hle := hrecmono _ _ _ hr
            refine ih st3 (fun l hl' => hl l (List.mem_cons_of_mem _ hl')) ?_ h
            exact Nat.le_trans (unvisitedCount_mono hle.2.1) hB
          · rename_i e hr
            have he : e = CrawlErr.fuelOut := Except.error.inj h
            subst he
            exact hrec { st with graph := g2 } link.path
              (hl link (List.mem_cons_self _ _)) hcont hB hr
        · exact ih { st with graph := g2 }
            (fun l hl' => hl l (List.mem_cons_of_mem _ hl')) hB h

theorem crawl_no_fuelOut (api : String → Doc) (allP : List String)
    (hAll : ∀ e, ∀ l ∈ linksOf api e, generic_path (Link.path l) ∈ allP) :
    ∀ (fuel : Nat) (st : CrawlState) (root : String),
    generic_path root ∈ allP →
    st.visited.contains (generic_path root) = false →
    unvisitedCount allP st.visited < fuel →
    crawl api fuel st root ≠ .error .fuelOut := by
  intro fuel
  induction fuel with
  | zero =>
    intro st root _ _ h3
    exact absurd h3 (Nat.not_lt_zero _)
  | succ fuel ih =>
    intro st root hroot hnv hcount h
    unfold crawl at h
    split at h
    · simp at h
    · rename_i rn hinf
      split at h
      · simp at h
      · rename_i links hgl
        have hlof : linksOf api root = links := by
          unfold linksOf
          rw [hgl]
          rfl
        have hlinks : ∀ l ∈ links, generic_path (Link.path l) ∈ allP := by
          intro l hli
          exact hAll root l (hlof ▸ hli)
        have hlt := unvisitedCount_addToSet_lt hroot hnv
        refine processLinks_no_fuelOut (crawl api fuel) rn allP
          (unvisitedCount allP (addToSet st.visited (generic_path root)))
          (crawl_mono api fuel) ?_ links _ hlinks (Nat.le_refl _) h
        intro stt r hrP hrc hrB
        exact ih stt r hrP hrc (by omega)

/-! ## Each canonical path is expanded at most once -/

theorem processLinks_expInv
    (recurse : CrawlState → String → Except CrawlErr CrawlState)
    (rn : String)
    (hrec : ∀ st r st', st.expanded.Nodup → (∀ c ∈ st.expanded, c ∈ st.visited) →
      st.visited.contains (generic_path r) = false → recurse st r = .ok st' →
      st'.expanded.Nodup ∧ ∀ c ∈ st'.expanded, c ∈ st'.visited) :
    ∀ (links : List Link) (st st' : CrawlState),
    st.expanded.Nodup → (∀ c ∈ st.expanded, c ∈ st.visited) →
    processLinks recurse rn st links = .ok st' →
    st'.expanded.Nodup ∧ ∀ c ∈ st'.expanded, c ∈ st'.visited := by
  intro links
  induction links with
  | nil =>
    intro st st' hnd hev h
    unfold processLinks at h
    cases h
    exact ⟨hnd, hev⟩
  | cons link rest ih =>
    intro st st' hnd hev h
    unfold processLinks at h
    split at h
    · exact absurd h (by simp)
    · rename_i linked hinf
      split at h
      · exact absurd h (by simp)
      · rename_i g2 hal
        split at h
        · rename_i hcond
          simp only [Bool.and_eq_true, Bool.not_eq_true'] at hcond
          split at h
          · rename_i st3 hr
            obtain ⟨h1, h2⟩ := hrec { st with graph := g2 } link.path st3 hnd hev hcond.2 hr
            exact ih st3 st' h1 h2 h
          · exact absurd h (by simp)
        · exact ih { st with graph := g2 } st' hnd hev h

theorem crawl_expInv (api : String → Doc) :
    ∀ (fuel : Nat) (st : CrawlState) (root : String) (st' : CrawlState),
    st.expanded.Nodup → (∀ c ∈ st.expanded, c ∈ st.visited) →
    st.visited.contains (generic_path root) = false →
    crawl api fuel st root = .ok st' →
    st'.expanded.Nodup ∧ ∀ c ∈ st'.expanded, c ∈ st'.visited := by
  intro fuel
  induction fuel with
  | zero =>
    intro st root st' _ _ _ h
    exact absurd h (by simp [crawl])
  | succ fuel ih =>
    intro st root st' hnd hev hnc h
    unfold crawl at h
    split at h
    · exact absurd h (by simp)
    · rename_i rn hinf
      split at h
      · exact absurd h (by simp)
      · rename_i links hgl
        have hcne : generic_path root ∉ st.expanded :=
          fun hce => not_mem_of_contains_false hnc (hev _ hce)
        have hnd' : (st.expanded ++ [generic_path root]).Nodup := by
          rw [List.nodup_append]
          refine ⟨hnd, List.nodup_singleton _, ?_⟩
          intro a ha hb
          rw [List.mem_singleton] at hb
          exact hcne (hb ▸ ha)
        have hev' : ∀ c ∈ st.expanded ++ [generic_path root],
            c ∈ addToSet st.visited (generic_path root) := by
          intro c hc
          rcases List.mem_append.mp hc with h1 | h1
          · exact mem_addToSet_of_mem (hev c h1)
          · rw [List.mem_singleton] at h1
            subst h1
            exact mem_addToSet_self _ _
        exact processLinks_expInv (crawl api fuel) rn ih links _ st' hnd' hev' h

/-- C1: with fuel exceeding the number of distinct canonical paths the
API's links can mention, the crawl never exhausts its fuel (the
recursion terminates); on success the trace of expanded canonical paths
has no duplicate (each canonical path is expanded at most once), every
expanded canonical path is in the final visited set (the path is added
to the visited set before its links are explored), and the visited set
only grows during any part of any run. -/
theorem find_all_paths_terminates (api : String → Doc) (allP : List String)
    (root : String) (fuel : Nat)
    (hAll : ∀ e, ∀ l ∈ linksOf api e, generic_path (Link.path l) ∈ allP)
    (hroot : generic_path root ∈ allP)
    (hfuel : allP.length < fuel) :
    crawl api fuel initState root ≠ .error .fuelOut ∧
    (∀ st', crawl api fuel initState root = .ok st' →
      st'.expanded.Nodup ∧ (∀ c ∈ st'.expanded, c ∈ st'.visited)) ∧
    (∀ (f : Nat) (st st' : CrawlState) (r : String), crawl api f st r = .ok st' →
      ∀ x ∈ st.visited, x ∈ st'.visited) := by
  refine ⟨?_, ?_, ?_⟩
  · apply crawl_no_fuelOut api allP hAll fuel initState root hroot rfl
    rw [show initState.visited = ([] : List String) from rfl, unvisitedCount_nil]
    exact hfuel
  · intro st' h
    exact crawl_expInv api fuel initState root st' (by simp [initState])
      (by simp [initState]) rfl h
  · intro f st st' r h x hx
    exact (crawl_mono api f st r st' h).2.1 x hx

/-- Witness for the C1 theorem's hypotheses at a concrete two-endpoint
cyclic API. -/
theorem find_all_paths_terminates_witness :
    (∀ e, ∀ l ∈ linksOf apiCycle e,
      generic_path (Link.path l) ∈ ["/v3/a", "/v3/b"]) ∧
    generic_path "/v3/a" ∈ ["/v3/a", "/v3/b"] ∧
    (["/v3/a", "/v3/b"] : List String).length < 3 ∧
    crawl apiCycle 3 initState "/v3/a" ≠ .error .fuelOut := by
  have hAll : ∀ e, ∀ l ∈ linksOf apiCycle e,
      generic_path (Link.path l) ∈ ["/v3/a", "/v3/b"] := by
    intro e
    by_cases h1 : e = "/v3/a"
    · subst h1
      decide
    · by_cases h2 : e = "/v3/b"
      · subst h2
        decide
      · have he : apiCycle e = leafDoc := by simp [apiCycle, h1, h2]
        have hl : get_links_from_endpoint apiCycle e = some [] := by
          unfold get_links_from_endpoint
          rw [he]
          rfl
        intro l hl'
        rw [show linksOf apiCycle e = [] from by unfold linksOf; rw [hl]; rfl] at hl'
        cases hl'
  exact ⟨hAll, by decide, by decide,
    (find_all_paths_terminates apiCycle ["/v3/a", "/v3/b"] "/v3/a" 3 hAll
      (by decide) (by decide)).1⟩

/-! ## C7: only followable links are fetched; every link yields an edge -/

theorem fetched_mem_mono {a b : CrawlState} (h : StateLe a b) {x : String}
    (hx : x ∈ a.fetched) : x ∈ b.fetched := by
  obtain ⟨⟨t, ht⟩, _⟩ := h
  rw [ht]
  exact List.mem_append_left _ hx

theorem followable_of_cond {link : Link}
    (h : ((link.is_read = true ∧ link.is_v3 = true) ∧ (!link.is_download) = true)) :
    followable link = true := by
  unfold followable
  simp [h.1.1, h.1.2, h.2]

theorem processLinks_prov (api : String → Doc)
    (recurse : CrawlState → String → Except CrawlErr CrawlState) (rn : String)
    (hrecmono : ∀ st r st', recurse st r = .ok st' → StateLe st st')
    (hrec : ∀ st r st', recurse st r = .ok st' → ∀ e, e ∈ st'.fetched →
      e ∉ st.fetched → e = r ∨ ∃ e' l, e' ∈ st'.fetched ∧ l ∈ linksOf api e' ∧
        e = Link.path l ∧ followable l = true) :
    ∀ (links : List Link) (st st' : CrawlState),
    processLinks recurse rn st links = .ok st' →
    ∀ e, e ∈ st'.fetched → e ∉ st.fetched →
    (∃ l, l ∈ links ∧ followable l = true ∧ e = Link.path l) ∨
    (∃ e' l, e' ∈ st'.fetched ∧ l ∈ linksOf api e' ∧ e = Link.path l ∧
      followable l = true) := by
  intro links
  induction links with
  | nil =>
    intro st st' h e he hne
    unfold processLinks at h
    cases h
    exact absurd he hne
  | cons link rest ih =>
    intro st st' h e he hne
    unfold processLinks at h
    split at h
    · exact absurd h (by simp)
    · rename_i linked hinf
      split at h
      · exact absurd h (by simp)
      · rename_i g2 hal
        split at h
        · rename_i hcond
          simp only [Bool.and_eq_true] at hcond
          split at h
          · rename_i st3 hr
            by_cases he3 : e ∈ st3.fetched
            · rcases hrec _ _ _ hr e he3 hne with h1 | ⟨e', l', he', hl', hp', hf'⟩
              · exact Or.inl ⟨link, List.mem_cons_self _ _, followable_of_cond hcond.1, h1⟩
              · exact Or.inr ⟨e', l',
                  fetched_mem_mono (processLinks_mono recurse rn hrecmono rest st3 st' h) he',
                  hl', hp', hf'⟩
            · rcases ih st3 st' h e he he3 with ⟨l, hl1, hl2, hl3⟩ | hdeep
              · exact Or.inl ⟨l, List.mem_cons_of_mem _ hl1, hl2, hl3⟩
              · exact Or.inr hdeep
          · exact absurd h (by simp)
        · rcases ih { st with graph := g2 } st' h e he hne with ⟨l, hl1, hl2, hl3⟩ | hdeep
          · exact Or.inl ⟨l, List.mem_cons_of_mem _ hl1, hl2, hl3⟩
          · exact Or.inr hdeep

theorem crawl_prov (api : String → Doc) :
    ∀ (fuel : Nat) (st : CrawlState) (root : String) (st' : CrawlState),
    crawl api fuel st root = .ok st' →
    ∀ e, e ∈ st'.fetched → e ∉ st.fetched →
    e = root ∨ ∃ e' l, e' ∈ st'.fetched ∧ l ∈ linksOf api e' ∧ e = Link.path l ∧
      followable l = true := by
  intro fuel
  induction fuel with
  | zero =>
    intro st root st' h
    exact absurd h (by simp [crawl])
  | succ fuel ih =>
    intro st root st' h e he hne
    unfold crawl at h
    split at h
    · exact absurd h (by simp)
    · rename_i rn hinf
      split at h
      · exact absurd h (by simp)
      · rename_i links hgl
        have hlof : linksOf api root = links := by
          unfold linksOf
          rw [hgl]
          rfl
        by_cases heX : e ∈ st.fetched ++ [root]
        · rcases List.mem_append.mp heX with h1 | h1
          · exact absurd h1 hne
          · exact Or.inl (List.mem_singleton.mp h1)
        · rcases processLinks_prov api (crawl api fuel) rn (crawl_mono api fuel) ih
            links _ st' h e he heX with ⟨l, hl1, hl2, hl3⟩ | hdeep
          · refine Or.inr ⟨root, l, ?_, hlof ▸ hl1, hl3, hl2⟩
            refine fetched_mem_mono
              (processLinks_mono (crawl api fuel) rn (crawl_mono api fuel) links _ st' h) ?_
            exact List.mem_append_right _ (List.mem_singleton.mpr rfl)
          · exact Or.inr hdeep

theorem processLinks_edges (api : String → Doc)
    (recurse : CrawlState → String → Except CrawlErr CrawlState) (rn : String)
    (hrecmono : ∀ st r st', recurse st r = .ok st' → StateLe st st')
    (hrecedge : ∀ st r st', recurse st r = .ok st' → ∀ e, e ∈ st'.fetched →
      e ∉ st.fetched → ∀ l, l ∈ linksOf api e →
      ∃ rn' ln, infer_resource e = some rn' ∧ infer_resource (Link.path l) = some ln ∧
        has_link st'.graph rn' ln (generic_path (Link.path l)) = true) :
    ∀ (links : List Link) (st st' : CrawlState),
    processLinks recurse rn st links = .ok st' →
    (∀ e, e ∈ st'.fetched → e ∉ st.fetched → ∀ l, l ∈ linksOf api e →
      ∃ rn' ln, infer_resource e = some rn' ∧ infer_resource (Link.path l) = some ln ∧
        has_link st'.graph rn' ln (generic_path (Link.path l)) = true) ∧
    (∀ l ∈ links, ∃ ln, infer_resource (Link.path l) = some ln ∧
      has_link st'.graph rn ln (generic_path (Link.path l)) = true) := by
  intro links
  induction links with
  | nil =>
    intro st st' h
    unfold processLinks at h
    cases h
    exact ⟨fun e he hne _ _ => absurd he hne, fun l hl => absurd hl (by simp)⟩
  | cons link rest ih =>
    intro st st' h
    unfold processLinks at h
    split at h
    · exact absurd h (by simp)
    · rename_i linked hinf
      split at h
      · exact absurd h (by simp)
      · rename_i g2 hal
        have hg2 : has_link g2 rn linked (generic_path link.path) = true :=
          (addLinkIfAbsent_elim hal).2.1
        split at h
        · rename_i hcond
          split at h
          · rename_i st3 hr
            obtain ⟨IH1, IH2⟩ := ih st3 st' h
            have hloople := processLinks_mono recurse rn hrecmono rest st3 st' h
            have hrecle := hrecmono _ _ _ hr
            refine ⟨?_, ?_⟩
            · intro e he hne l hl
              by_cases he3 : e ∈ st3.fetched
              · obtain ⟨rn', ln, h1, h2, h3⟩ := hrecedge _ _ _ hr e he3 hne l hl
                exact ⟨rn', ln, h1, h2, hloople.2.2.2.1 _ _ _ h3⟩
              · exact IH1 e he he3 l hl
            · intro l hl
              rcases List.mem_cons.mp hl with rfl | hl'
              · refine ⟨linked, hinf, ?_⟩
                exact hloople.2.2.2.1 _ _ _ (hrecle.2.2.2.1 _ _ _ hg2)
              · exact IH2 l hl'
          · exact absurd h (by simp)
        · obtain ⟨IH1, IH2⟩ := ih { st with graph := g2 } st' h
          have hloople := processLinks_mono recurse rn hrecmono rest _ st' h
          refine ⟨IH1, ?_⟩
          intro l hl
          rcases List.mem_cons.mp hl with rfl | hl'
          · exact ⟨linked, hinf, hloople.2.2.2.1 _ _ _ hg2⟩
          · exact IH2 l hl'

theorem crawl_edges (api : String → Doc) :
    ∀ (fuel : Nat) (st : CrawlState) (root : String) (st' : CrawlState),
    crawl api fuel st root = .ok st' →
    ∀ e, e ∈ st'.fetched → e ∉ st.fetched → ∀ l, l ∈ linksOf api e →
    ∃ rn ln, infer_resource e = some rn ∧ infer_resource (Link.path l) = some ln ∧
      has_link st'.graph rn ln (generic_path (Link.path l)) = true := by
  intro fuel
  induction fuel with
  | zero =>
    intro st root st' h
    exact absurd h (by simp [crawl])
  | succ fuel ih =>
    intro st root st' h e he hne l hl
    unfold crawl at h
    split at h
    · exact absurd h (by simp)
    · rename_i rn hinf
      split at h
      · exact absurd h (by simp)
      · rename_i links hgl
        have hlof : linksOf api root = links := by
          unfold linksOf
          rw [hgl]
          rfl
        obtain ⟨IH1, IH2⟩ := processLinks_edges api (crawl api fuel) rn
          (crawl_mono api fuel) ih links _ st' h
        by_cases heX : e ∈ st.fetched ++ [root]
        · rcases List.mem_append.mp heX with h1 | h1
          · exact absurd h1 hne
          · have hroot : e = root := List.mem_singleton.mp h1
            subst hroot
            obtain ⟨ln, h1, h2⟩ := IH2 l (by rw [← hlof]; exact hl)
            exact ⟨rn, ln, hinf, h1, h2⟩
        · exact IH1 e he heX l hl

/-- C7: in any successful crawl, every endpoint fetched beyond the root
is the path of some followable link (method GET or absent, href in the
v3 namespace, href not a download) extracted from a fetched endpoint —
non-followable links never trigger recursion — while every link
extracted from any fetched endpoint, followable or not, has produced a
graph edge from the endpoint's resource to the link's resource, labelled
with the link's canonical path, in the final graph. -/
theorem find_all_paths_followability (api : String → Doc) (fuel : Nat)
    (st : CrawlState) (root : String) (st' : CrawlState)
    (h : crawl api fuel st root = .ok st') :
    (∀ e, e ∈ st'.fetched → e ∉ st.fetched →
      e = root ∨ ∃ e' l, e' ∈ st'.fetched ∧ l ∈ linksOf api e' ∧ e = Link.path l ∧
        followable l = true) ∧
    (∀ e, e ∈ st'.fetched → e ∉ st.fetched → ∀ l, l ∈ linksOf api e →
      ∃ rn ln, infer_resource e = some rn ∧ infer_resource (Link.path l) = some ln ∧
        has_link st'.graph rn ln (generic_path (Link.path l)) = true) :=
  ⟨crawl_prov api fuel st root st' h, crawl_edges api fuel st root st' h⟩

/-- Witness for the C7 theorem's hypothesis: a concrete run over an API
whose root carries a followable GET link, a POST link and a GET download
link. -/
theorem find_all_paths_followability_witness :
    crawl apiFilter 5 initState "/v3" = .ok filterSt ∧
    ((∀ e, e ∈ filterSt.fetched → e ∉ initState.fetched →
      e = "/v3" ∨ ∃ e' l, e' ∈ filterSt.fetched ∧ l ∈ linksOf apiFilter e' ∧
        e = Link.path l ∧ followable l = true) ∧
    (∀ e, e ∈ filterSt.fetched → e ∉ initState.fetched → ∀ l, l ∈ linksOf apiFilter e →
      ∃ rn ln, infer_resource e = some rn ∧ infer_resource (Link.path l) = some ln ∧
        has_link filterSt.graph rn ln (generic_path (Link.path l)) = true)) := by
  have hok : crawl apiFilter 5 initState "/v3" = .ok filterSt := by rfl
  exact ⟨hok, find_all_paths_followability apiFilter 5 initState "/v3" filterSt hok⟩

end CapiCrawler
